import Mathlib

/-!
Shallow embedding of the alator/rotala exchange core, translated from
`src/exchange/uist_v1.rs` and `src/http/jura.rs`.  Prices (`f64` in the
source) are embedded as rationals; timestamps (`i64`) as integers; the
`u64` order-id counter as a natural number.  `crate::clock::Clock` and
`crate::input::penelope::Penelope` are not part of the sources, so the
clock and the quote-store interface are modelled from the spec where
noted.
-/

set_option autoImplicit false

namespace Uist

/-- Rust `pub type OrderId = u64;` -/
abbrev OrderId := Nat

/-- Rust `enum TradeType { Buy, Sell }` -/
inductive TradeType where
  | buy
  | sell
deriving DecidableEq, Repr

/-- Rust `enum OrderType { MarketSell, MarketBuy, LimitSell, LimitBuy, StopSell, StopBuy }` -/
inductive OrderType where
  | marketSell
  | marketBuy
  | limitSell
  | limitBuy
  | stopSell
  | stopBuy
deriving DecidableEq, Repr

/-- Rust `struct UistQuote { bid: f64, ask: f64, date: i64, symbol: String }` -/
structure UistQuote where
  bid : ℚ
  ask : ℚ
  date : Int
  symbol : String
deriving DecidableEq, Repr

/-- Rust `struct Trade { symbol, value, quantity, date, typ }` -/
structure Trade where
  symbol : String
  value : ℚ
  quantity : ℚ
  date : Int
  typ : TradeType
deriving DecidableEq, Repr

/-- Rust `struct Order { order_id: Option<OrderId>, order_type, symbol, shares: f64, price: Option<f64> }` -/
structure Order where
  order_id : Option OrderId
  order_type : OrderType
  symbol : String
  shares : ℚ
  price : Option ℚ
deriving DecidableEq, Repr

/-- Rust `Order::set_order_id(&mut self, order_id: u64)`. -/
def Order.setOrderId (o : Order) (i : OrderId) : Order :=
  { o with order_id := some i }

/-- Rust `impl PartialEq for Order`: compares `symbol`, `order_type` and `shares`
only; `order_id` and `price` do not take part. -/
def Order.beq (a b : Order) : Bool :=
  a.symbol == b.symbol && a.order_type == b.order_type && a.shares == b.shares

/-- Rust `Option<f64>: PartialOrd`, operator `>=`: `None` is below every
`Some`; two `Some`s compare by value. -/
def optGe : Option ℚ → Option ℚ → Bool
  | none, none => true
  | none, some _ => false
  | some _, none => true
  | some a, some b => a ≥ b

/-- Rust `Option<f64>: PartialOrd`, operator `<=`. -/
def optLe : Option ℚ → Option ℚ → Bool
  | none, none => true
  | none, some _ => true
  | some _, none => false
  | some a, some b => a ≤ b

/-- Rust `trait UistSource { fn get_quote(&self, date: &i64, security: &str) -> Option<UistQuote> }`:
the only capability `execute_orders` uses from the price source. -/
def Source := Int → String → Option UistQuote

/-- Rust `struct OrderBook { inner: VecDeque<Order>, last_inserted: u64 }` -/
structure OrderBook where
  inner : List Order
  last_inserted : Nat
deriving DecidableEq, Repr

/-- Rust `OrderBook::new()` -/
def OrderBook.new : OrderBook :=
  { inner := [], last_inserted := 0 }

/-- The scan inside `OrderBook::delete_order`: find the first position whose
order carries `Some(delete_order_id)` and remove it; no match leaves the
queue untouched. -/
def deleteFirstWithId : List Order → OrderId → List Order
  | [], _ => []
  | o :: rest, i => if o.order_id = some i then rest else o :: deleteFirstWithId rest i

/-- Rust `OrderBook::delete_order(&mut self, delete_order_id: u64)` -/
def OrderBook.deleteOrder (b : OrderBook) (delete_order_id : OrderId) : OrderBook :=
  { b with inner := deleteFirstWithId b.inner delete_order_id }

/-- Rust `OrderBook::insert_order(&mut self, order: &mut Order)`: stamps
`order_id = last_inserted` on the caller's order, pushes a clone at the back,
then increments the counter.  The stamped order is returned alongside the new
book to model the in-place mutation of the caller's value. -/
def OrderBook.insertOrder (b : OrderBook) (order : Order) : OrderBook × Order :=
  let stamped := order.setOrderId b.last_inserted
  ({ inner := b.inner ++ [stamped], last_inserted := b.last_inserted + 1 }, stamped)

/-- Rust `OrderBook::is_empty` -/
def OrderBook.isEmpty (b : OrderBook) : Bool :=
  b.inner.isEmpty

/-- Rust `OrderBook::execute_buy`: fills at the quote's ask. -/
def OrderBook.executeBuy (quote : UistQuote) (order : Order) (date : Int) : Trade :=
  { symbol := order.symbol
    value := quote.ask * order.shares
    quantity := order.shares
    date := date
    typ := TradeType.buy }

/-- Rust `OrderBook::execute_sell`: fills at the quote's bid. -/
def OrderBook.executeSell (quote : UistQuote) (order : Order) (date : Int) : Trade :=
  { symbol := order.symbol
    value := quote.bid * order.shares
    quantity := order.shares
    date := date
    typ := TradeType.sell }

/-- The per-order body of the loop in `OrderBook::execute_orders`: look the
quote up, then apply the order-type rule.  The limit/stop comparisons are the
source's `Option<f64>` comparisons (`order_price >= Some(...)` etc.). -/
def orderResult (source : Source) (date : Int) (order : Order) : Option Trade :=
  match source date order.symbol with
  | none => none
  | some quote =>
    match order.order_type with
    | OrderType.marketBuy => some (OrderBook.executeBuy quote order date)
    | OrderType.marketSell => some (OrderBook.executeSell quote order date)
    | OrderType.limitBuy =>
      if optGe order.price (some quote.ask) then some (OrderBook.executeBuy quote order date)
      else none
    | OrderType.limitSell =>
      if optLe order.price (some quote.bid) then some (OrderBook.executeSell quote order date)
      else none
    | OrderType.stopBuy =>
      if optLe order.price (some quote.ask) then some (OrderBook.executeBuy quote order date)
      else none
    | OrderType.stopSell =>
      if optGe order.price (some quote.bid) then some (OrderBook.executeSell quote order date)
      else none

/-- Rust `OrderBook::execute_orders(&mut self, date, source) -> Vec<Trade>`.
One pass collects, in walk order, the trades of the triggered orders and the
triggered orders' ids (`completed_orderids.push(order.order_id.unwrap())`:
the id is collected when present — a `None` id on a triggered order would
abort the Rust program, and theorems that depend on the deletions assume all
book ids are present); a second pass deletes each collected id via
`delete_order`.  The trades and the updated book are returned. -/
def OrderBook.executeOrders (b : OrderBook) (date : Int) (source : Source) :
    List Trade × OrderBook :=
  if b.isEmpty then ([], b)
  else
    let completed_orderids :=
      b.inner.filterMap fun o => if (orderResult source date o).isSome then o.order_id else none
    let trade_results := b.inner.filterMap (orderResult source date)
    (trade_results,
      { b with inner := completed_orderids.foldl (fun l i => deleteFirstWithId l i) b.inner })

/-- Modelled from the spec: `crate::clock::Clock` is not among the sources.
Spec §4.1: a Clock is a finite, strictly increasing sequence of timestamps
with a position; `now()` is the current timestamp, `has_next()` whether
another tick is possible.  Spec §4.4/§7: a tick requested beyond the schedule
(`ClockExhausted`) is never an error and leaves the state unchanged, so
`tick()` is a no-op once exhausted. -/
structure Clock where
  dates : List Int
  pos : Nat
deriving DecidableEq, Repr

/-- Modelled from the spec: `clock.now()` — the timestamp at the current
position (positions stay in range for well-formed clocks). -/
def Clock.now (c : Clock) : Int :=
  c.dates.getD c.pos 0

/-- Modelled from the spec: `clock.has_next()`. -/
def Clock.hasNext (c : Clock) : Bool :=
  decide (c.pos + 1 < c.dates.length)

/-- Modelled from the spec: `clock.tick()` — advance when possible, no state
change once exhausted. -/
def Clock.tick (c : Clock) : Clock :=
  if c.hasNext then { c with pos := c.pos + 1 } else c

/-- A well-formed clock: the position is in range and the schedule is
strictly increasing (spec §4.1 monotonicity). -/
def Clock.WF (c : Clock) : Prop :=
  c.pos < c.dates.length ∧ c.dates.Sorted (· < ·)

/-- The comparator of `UistV1::sort_order_buffer`: `Less` whenever the FIRST
argument is a sell (`LimitSell | StopSell | MarketSell`), `Greater`
otherwise; the second argument is ignored. -/
def isSellOrder (o : Order) : Bool :=
  match o.order_type with
  | OrderType.limitSell => true
  | OrderType.stopSell => true
  | OrderType.marketSell => true
  | _ => false

/-- One step of the standard library's insertion sort under the comparator
above — `insert_head` in `slice::sort_by`'s small-slice path: the head is
moved right past the maximal leading run of elements that compare `Less`
than it, that is, past the leading sells of the tail. -/
def insertHead (h : Order) (t : List Order) : List Order :=
  t.takeWhile isSellOrder ++ h :: t.dropWhile isSellOrder

/-- Rust `UistV1::sort_order_buffer`, i.e. `Vec::sort_by` with the comparator
above.  The comparator ignores its second argument, so it is not a total
order and the stable-sort contract does not constrain the result; the
algorithm itself decides it.  For buffers of at most 20 orders (both the
pre-1.81 merge sort and the current driftsort fall back to insertion sort
below that length) the result is the insertion sort embedded here, which
places the sells — in reverse insertion order — before the buys — in
insertion order (`sortOrderBuffer_eq` below). -/
def sortOrderBuffer : List Order → List Order
  | [] => []
  | h :: t => insertHead h (sortOrderBuffer t)

/-- Rust `struct UistV1 { dataset, clock, price_source, orderbook, trade_log, order_buffer }` -/
structure UistV1 where
  dataset : String
  clock : Clock
  price_source : Source
  orderbook : OrderBook
  trade_log : List Trade
  order_buffer : List Order

/-- Rust `UistV1::new(clock, price_source, dataset)` -/
def UistV1.new (clock : Clock) (price_source : Source) (dataset : String) : UistV1 :=
  { dataset := dataset
    clock := clock
    price_source := price_source
    orderbook := OrderBook.new
    trade_log := []
    order_buffer := [] }

/-- Rust `UistV1::insert_order`: push onto the buffer; the book is only touched on
tick. -/
def UistV1.insertOrder (s : UistV1) (order : Order) : UistV1 :=
  { s with order_buffer := s.order_buffer ++ [order] }

/-- Rust `UistV1::delete_order`: forwarded to the book. -/
def UistV1.deleteOrder (s : UistV1) (order_id : OrderId) : UistV1 :=
  { s with orderbook := s.orderbook.deleteOrder order_id }

/-- The loop `for order in self.order_buffer.iter_mut() { self.orderbook.insert_order(order) }`:
each buffered order is stamped in place and appended to the book; the stamped
buffer is returned with the book. -/
def insertAll (b : OrderBook) : List Order → OrderBook × List Order
  | [] => (b, [])
  | o :: rest =>
    let step := b.insertOrder o
    let restRun := insertAll step.1 rest
    (restRun.1, step.2 :: restRun.2)

/-- Rust `UistV1::tick() -> (bool, Vec<Trade>, Vec<Order>)`: advance the clock
first, sort the buffer, insert it into the book, execute at the new `now`,
append to the trade log, hand the (sorted, stamped) buffer back and clear
it. -/
def UistV1.tick (s : UistV1) : (Bool × List Trade × List Order) × UistV1 :=
  let clock2 := s.clock.tick
  let buffer2 := sortOrderBuffer s.order_buffer
  let ins := insertAll s.orderbook buffer2
  let now := clock2.now
  let run := ins.1.executeOrders now s.price_source
  ((clock2.hasNext, run.1, ins.2),
    { s with
      clock := clock2
      orderbook := run.2
      trade_log := s.trade_log ++ run.1
      order_buffer := [] })


end Uist

namespace Jura

/-- Modelled from the spec: `crate::input::penelope::Penelope` is not among
the sources; of it `AppState` only uses `get_first_date` (spec §4.2
`first_date()`), so a dataset is embedded as that date. -/
structure Penelope where
  first_date : Int
deriving DecidableEq, Repr

/-- Rust `struct BacktestState { id, date, exchange, dataset_name }`: the
exchange (`JuraV1::new()`, a fresh empty engine) carries no information
relevant to the session-id logic and is omitted. -/
structure BacktestState where
  id : Nat
  date : Int
  dataset_name : String
deriving DecidableEq, Repr

/-- Rust `HashMap::insert`: replace the value at an existing key, else add the
entry.  The map is embedded as an association list. -/
def mapInsert {β : Type} : List (Nat × β) → Nat → β → List (Nat × β)
  | [], k, v => [(k, v)]
  | (k', v') :: rest, k, v =>
    if k' = k then (k, v) :: rest else (k', v') :: mapInsert rest k v

/-- Rust `HashMap::get` over the association-list embedding. -/
def mapGet {β : Type} : List (Nat × β) → Nat → Option β
  | [], _ => none
  | (k', v') :: rest, k => if k' = k then some v' else mapGet rest k

/-- Dataset lookup (`self.datasets.get(name)`). -/
def dsGet : List (String × Penelope) → String → Option Penelope
  | [], _ => none
  | (k', v') :: rest, k => if k' = k then some v' else dsGet rest k

/-- Rust `struct AppState { backtests: HashMap<BacktestId, BacktestState>, last: BacktestId, datasets: HashMap<String, Penelope> }` -/
structure AppState where
  backtests : List (Nat × BacktestState)
  last : Nat
  datasets : List (String × Penelope)
deriving DecidableEq, Repr

/-- Rust `AppState::init(&mut self, dataset_name) -> Option<BacktestId>`: computes
`new_id = self.last + 1`, registers the backtest under it — and does NOT
update `self.last`. -/
def AppState.init (st : AppState) (dataset_name : String) : Option Nat × AppState :=
  match dsGet st.datasets dataset_name with
  | some dataset =>
    let new_id := st.last + 1
    let backtest : BacktestState :=
      { id := new_id, date := dataset.first_date, dataset_name := dataset_name }
    (some new_id, { st with backtests := mapInsert st.backtests new_id backtest })
  | none => (none, st)

/-- Rust `AppState::new_backtest(&mut self, dataset_name) -> Option<BacktestId>`:
like `init`, but records `self.last = new_id`. -/
def AppState.newBacktest (st : AppState) (dataset_name : String) : Option Nat × AppState :=
  match dsGet st.datasets dataset_name with
  | some dataset =>
    let new_id := st.last + 1
    let backtest : BacktestState :=
      { id := new_id, date := dataset.first_date, dataset_name := dataset_name }
    (some new_id,
      { st with backtests := mapInsert st.backtests new_id backtest, last := new_id })
  | none => (none, st)

end Jura

namespace Uist

/-! ### Basic facts about the per-order execution rule -/

/-- Every trade the rule produces is a full fill of the order at the looked-up
quote: a buy fill (at the ask) when the order is a buy, a sell fill (at the
bid) when it is a sell. -/
theorem orderResult_shape {source : Source} {date : Int} {o : Order} {t : Trade}
    (h : orderResult source date o = some t) :
    ∃ q, source date o.symbol = some q ∧
      ((isSellOrder o = false ∧ t = OrderBook.executeBuy q o date) ∨
        (isSellOrder o = true ∧ t = OrderBook.executeSell q o date)) := by
  unfold orderResult at h
  split at h
  · exact Option.noConfusion h
  · next q hq =>
    split at h
    · next hty =>
      exact ⟨q, hq, Or.inl ⟨by simp [isSellOrder, hty], (Option.some.inj h).symm⟩⟩
    · next hty =>
      exact ⟨q, hq, Or.inr ⟨by simp [isSellOrder, hty], (Option.some.inj h).symm⟩⟩
    · next hty =>
      split at h
      · exact ⟨q, hq, Or.inl ⟨by simp [isSellOrder, hty], (Option.some.inj h).symm⟩⟩
      · exact Option.noConfusion h
    · next hty =>
      split at h
      · exact ⟨q, hq, Or.inr ⟨by simp [isSellOrder, hty], (Option.some.inj h).symm⟩⟩
      · exact Option.noConfusion h
    · next hty =>
      split at h
      · exact ⟨q, hq, Or.inl ⟨by simp [isSellOrder, hty], (Option.some.inj h).symm⟩⟩
      · exact Option.noConfusion h
    · next hty =>
      split at h
      · exact ⟨q, hq, Or.inr ⟨by simp [isSellOrder, hty], (Option.some.inj h).symm⟩⟩
      · exact Option.noConfusion h

theorem orderResult_date {source : Source} {date : Int} {o : Order} {t : Trade}
    (h : orderResult source date o = some t) : t.date = date := by
  obtain ⟨q, -, hcase⟩ := orderResult_shape h
  rcases hcase with ⟨-, rfl⟩ | ⟨-, rfl⟩ <;> rfl

theorem orderResult_quantity {source : Source} {date : Int} {o : Order} {t : Trade}
    (h : orderResult source date o = some t) : t.quantity = o.shares := by
  obtain ⟨q, -, hcase⟩ := orderResult_shape h
  rcases hcase with ⟨-, rfl⟩ | ⟨-, rfl⟩ <;> rfl

theorem orderResult_typ_of_sell {source : Source} {date : Int} {o : Order} {t : Trade}
    (hs : isSellOrder o = true) (h : orderResult source date o = some t) :
    t.typ = TradeType.sell := by
  obtain ⟨q, -, hcase⟩ := orderResult_shape h
  rcases hcase with ⟨hb, rfl⟩ | ⟨-, rfl⟩
  · rw [hs] at hb; exact Bool.noConfusion hb
  · rfl

theorem orderResult_typ_of_buy {source : Source} {date : Int} {o : Order} {t : Trade}
    (hs : isSellOrder o = false) (h : orderResult source date o = some t) :
    t.typ = TradeType.buy := by
  obtain ⟨q, -, hcase⟩ := orderResult_shape h
  rcases hcase with ⟨-, rfl⟩ | ⟨hb, rfl⟩
  · rfl
  · rw [hs] at hb; exact Bool.noConfusion hb

theorem orderResult_of_no_quote {source : Source} {date : Int} {o : Order}
    (h : source date o.symbol = none) : orderResult source date o = none := by
  unfold orderResult
  rw [h]

/-! ### Projections of `execute_orders` -/

theorem executeOrders_fst (b : OrderBook) (date : Int) (source : Source) :
    (b.executeOrders date source).1 = b.inner.filterMap (orderResult source date) := by
  unfold OrderBook.executeOrders
  split
  · next hemp =>
    simp only [OrderBook.isEmpty, List.isEmpty_iff] at hemp
    rw [hemp]
    rfl
  · rfl

theorem executeOrders_snd_inner (b : OrderBook) (date : Int) (source : Source) :
    (b.executeOrders date source).2.inner
      = (b.inner.filterMap fun o =>
          if (orderResult source date o).isSome then o.order_id else none).foldl
            (fun l i => deleteFirstWithId l i) b.inner := by
  unfold OrderBook.executeOrders
  split
  · next hemp =>
    simp only [OrderBook.isEmpty, List.isEmpty_iff] at hemp
    rw [hemp]
    rfl
  · rfl

theorem executeOrders_snd_last (b : OrderBook) (date : Int) (source : Source) :
    (b.executeOrders date source).2.last_inserted = b.last_inserted := by
  unfold OrderBook.executeOrders
  split <;> rfl

/-! ### The buffer sort -/

theorem takeWhile_append_of_all {p : Order → Bool} {l1 : List Order} (l2 : List Order)
    (h : ∀ x ∈ l1, p x = true) :
    (l1 ++ l2).takeWhile p = l1 ++ l2.takeWhile p := by
  induction l1 with
  | nil => rfl
  | cons x xs ih =>
    simp only [List.cons_append, List.takeWhile_cons, h x (List.mem_cons_self _ _), if_true]
    rw [ih fun y hy => h y (List.mem_cons_of_mem x hy)]

theorem dropWhile_append_of_all {p : Order → Bool} {l1 : List Order} (l2 : List Order)
    (h : ∀ x ∈ l1, p x = true) :
    (l1 ++ l2).dropWhile p = l2.dropWhile p := by
  induction l1 with
  | nil => rfl
  | cons x xs ih =>
    simp only [List.cons_append, List.dropWhile_cons, h x (List.mem_cons_self _ _), if_true]
    exact ih fun y hy => h y (List.mem_cons_of_mem x hy)

theorem takeWhile_eq_nil_of_all {p : Order → Bool} {l : List Order}
    (h : ∀ x ∈ l, p x = false) : l.takeWhile p = [] := by
  cases l with
  | nil => rfl
  | cons x xs => simp [List.takeWhile_cons, h x (List.mem_cons_self _ _)]

theorem dropWhile_eq_self_of_all {p : Order → Bool} {l : List Order}
    (h : ∀ x ∈ l, p x = false) : l.dropWhile p = l := by
  cases l with
  | nil => rfl
  | cons x xs => simp [List.dropWhile_cons, h x (List.mem_cons_self _ _)]

/-- The closed form of the buffer sort: the sells, in reverse insertion
order, followed by the buys, in insertion order. -/
theorem sortOrderBuffer_eq (l : List Order) :
    sortOrderBuffer l
      = (l.filter isSellOrder).reverse ++ l.filter (fun o => !isSellOrder o) := by
  induction l with
  | nil => rfl
  | cons h t ih =>
    have hsells : ∀ x ∈ (t.filter isSellOrder).reverse, isSellOrder x = true := by
      intro x hx
      exact List.of_mem_filter (List.mem_reverse.mp hx)
    have hbuys : ∀ x ∈ t.filter (fun o => !isSellOrder o), isSellOrder x = false := by
      intro x hx
      have := List.of_mem_filter hx
      simpa using this
    have hins : insertHead h ((t.filter isSellOrder).reverse ++ t.filter (fun o => !isSellOrder o))
        = (t.filter isSellOrder).reverse ++ h :: t.filter (fun o => !isSellOrder o) := by
      unfold insertHead
      rw [takeWhile_append_of_all _ hsells, dropWhile_append_of_all _ hsells,
        takeWhile_eq_nil_of_all hbuys, dropWhile_eq_self_of_all hbuys, List.append_nil]
    show insertHead h (sortOrderBuffer t) = _
    rw [ih, hins]
    cases hsh : isSellOrder h with
    | true =>
      rw [List.filter_cons_of_pos hsh, List.filter_cons_of_neg (by simp [hsh])]
      simp [List.reverse_cons]
    | false =>
      rw [List.filter_cons_of_neg (by simp [hsh]), List.filter_cons_of_pos (by simp [hsh])]

theorem sortOrderBuffer_length (l : List Order) :
    (sortOrderBuffer l).length = l.length := by
  rw [sortOrderBuffer_eq]
  simp only [List.length_append, List.length_reverse]
  induction l with
  | nil => rfl
  | cons x xs ih =>
    cases hx : isSellOrder x <;>
      simp [List.filter_cons, hx, ← ih] <;> omega

/-! ### Inserting the buffer: stamping -/

/-- The effect of repeated `insert_order` calls: each order is stamped with
the successive counter values. -/
def stampFrom (c : Nat) : List Order → List Order
  | [] => []
  | o :: rest => o.setOrderId c :: stampFrom (c + 1) rest

theorem insertAll_eq (l : List Order) (b : OrderBook) :
    insertAll b l
      = ({ inner := b.inner ++ stampFrom b.last_inserted l,
           last_inserted := b.last_inserted + l.length }, stampFrom b.last_inserted l) := by
  induction l generalizing b with
  | nil => simp [insertAll, stampFrom]
  | cons o rest ih =>
    show (let step := b.insertOrder o
          let restRun := insertAll step.1 rest
          (restRun.1, step.2 :: restRun.2)) = _
    simp only [OrderBook.insertOrder, insertAll, ih, stampFrom]
    refine Prod.ext ?_ rfl
    simp [List.append_assoc, Nat.add_assoc, Nat.add_comm 1 rest.length]

theorem stampFrom_length (c : Nat) (l : List Order) :
    (stampFrom c l).length = l.length := by
  induction l generalizing c with
  | nil => rfl
  | cons o rest ih => simp [stampFrom, ih]

theorem stampFrom_append (c : Nat) (l1 l2 : List Order) :
    stampFrom c (l1 ++ l2) = stampFrom c l1 ++ stampFrom (c + l1.length) l2 := by
  induction l1 generalizing c with
  | nil => rfl
  | cons o rest ih =>
    simp [stampFrom, ih, Nat.add_assoc, Nat.add_comm 1 rest.length]

theorem mem_stampFrom {c : Nat} {l : List Order} {o : Order} (h : o ∈ stampFrom c l) :
    ∃ x ∈ l, ∃ k, o = x.setOrderId k := by
  induction l generalizing c with
  | nil => exact absurd h (List.not_mem_nil o)
  | cons x rest ih =>
    rcases List.mem_cons.mp h with rfl | h2
    · exact ⟨x, List.mem_cons_self _ _, c, rfl⟩
    · obtain ⟨y, hy, k, hk⟩ := ih h2
      exact ⟨y, List.mem_cons_of_mem x hy, k, hk⟩

theorem isSellOrder_setOrderId (o : Order) (k : OrderId) :
    isSellOrder (o.setOrderId k) = isSellOrder o := rfl

/-- The ids carried by a stamped batch are the consecutive counter values. -/
theorem stampFrom_ids (c : Nat) (l : List Order) :
    (stampFrom c l).filterMap Order.order_id = List.range' c l.length := by
  induction l generalizing c with
  | nil => rfl
  | cons o rest ih =>
    simp [stampFrom, List.filterMap_cons, Order.setOrderId, List.range'_succ, ih]

/-! ### Deletion by id -/

/-- The ids present in a queue of orders. -/
def bookIds (l : List Order) : List OrderId :=
  l.filterMap Order.order_id

theorem mem_bookIds {l : List Order} {o : Order} {i : OrderId}
    (ho : o ∈ l) (hi : o.order_id = some i) : i ∈ bookIds l :=
  List.mem_filterMap.mpr ⟨o, ho, hi⟩

theorem deleteFirstWithId_of_not_mem {l : List Order} {i : OrderId}
    (h : ∀ o ∈ l, o.order_id ≠ some i) : deleteFirstWithId l i = l := by
  induction l with
  | nil => rfl
  | cons o rest ih =>
    unfold deleteFirstWithId
    rw [if_neg (h o (List.mem_cons_self _ _)), ih fun y hy => h y (List.mem_cons_of_mem o hy)]

theorem mem_deleteFirstWithId {l : List Order} {i : OrderId} {o : Order}
    (ho : o ∈ l) (hne : o.order_id ≠ some i) : o ∈ deleteFirstWithId l i := by
  induction l with
  | nil => exact absurd ho (List.not_mem_nil o)
  | cons x rest ih =>
    unfold deleteFirstWithId
    split
    · next hx =>
      rcases List.mem_cons.mp ho with rfl | h2
      · exact absurd hx hne
      · exact h2
    · rcases List.mem_cons.mp ho with rfl | h2
      · exact List.mem_cons_self _ _
      · exact List.mem_cons_of_mem x (ih h2)

theorem deleteFirstWithId_sublist (l : List Order) (i : OrderId) :
    (deleteFirstWithId l i).Sublist l := by
  induction l with
  | nil => exact List.Sublist.refl _
  | cons x rest ih =>
    unfold deleteFirstWithId
    split
    · exact (List.Sublist.refl rest).cons x
    · exact ih.cons₂ x

theorem foldl_deleteFirst_cons {o : Order} (l : List Order) {ids : List OrderId}
    (h : ∀ i ∈ ids, o.order_id ≠ some i) :
    ids.foldl (fun acc i => deleteFirstWithId acc i) (o :: l)
      = o :: ids.foldl (fun acc i => deleteFirstWithId acc i) l := by
  induction ids generalizing l with
  | nil => rfl
  | cons i rest ih =>
    simp only [List.foldl_cons]
    rw [show deleteFirstWithId (o :: l) i = o :: deleteFirstWithId l i from by
      simp only [deleteFirstWithId]
      rw [if_neg (h i (List.mem_cons_self _ _))]]
    exact ih _ fun j hj => h j (List.mem_cons_of_mem i hj)

/-- With ids unique, two orders of the queue carrying the same id coincide. -/
theorem nodup_ids_eq {l : List Order} (hnd : (bookIds l).Nodup)
    {o o' : Order} {i : OrderId} (ho : o ∈ l) (ho' : o' ∈ l)
    (hi : o.order_id = some i) (hi' : o'.order_id = some i) : o = o' := by
  induction l with
  | nil => exact absurd ho (List.not_mem_nil o)
  | cons x rest ih =>
    rcases List.mem_cons.mp ho with rfl | hor
    · rcases List.mem_cons.mp ho' with rfl | hor'
      · rfl
      · exfalso
        have hmem : i ∈ bookIds rest := mem_bookIds hor' hi'
        unfold bookIds at hnd
        rw [List.filterMap_cons, hi] at hnd
        exact (List.nodup_cons.mp hnd).1 hmem
    · rcases List.mem_cons.mp ho' with rfl | hor'
      · exfalso
        have hmem : i ∈ bookIds rest := mem_bookIds hor hi
        unfold bookIds at hnd
        rw [List.filterMap_cons, hi'] at hnd
        exact (List.nodup_cons.mp hnd).1 hmem
      · refine ih ?_ hor hor'
        unfold bookIds at hnd ⊢
        rw [List.filterMap_cons] at hnd
        cases hx : Order.order_id x with
        | none => rw [hx] at hnd; exact hnd
        | some j => rw [hx] at hnd; exact (List.nodup_cons.mp hnd).2

/-- Under unique, present ids, the delete pass of `execute_orders` removes
exactly the orders selected by `p`, keeping the others in their order. -/
theorem foldl_delete_filterMap (p : Order → Bool) (l : List Order)
    (hsome : ∀ o ∈ l, (Order.order_id o).isSome = true) (hnd : (bookIds l).Nodup) :
    (l.filterMap fun o => if p o then o.order_id else none).foldl
        (fun acc i => deleteFirstWithId acc i) l
      = l.filter (fun o => !p o) := by
  induction l with
  | nil => rfl
  | cons o rest ih =>
    obtain ⟨io, hio⟩ := Option.isSome_iff_exists.mp (hsome o (List.mem_cons_self _ _))
    have hnd' : (bookIds (o :: rest)).Nodup := hnd
    unfold bookIds at hnd'
    rw [List.filterMap_cons, hio] at hnd'
    have hio_not : io ∉ bookIds rest := (List.nodup_cons.mp hnd').1
    have hndrest : (bookIds rest).Nodup := (List.nodup_cons.mp hnd').2
    have hsomerest : ∀ x ∈ rest, (Order.order_id x).isSome = true :=
      fun x hx => hsome x (List.mem_cons_of_mem o hx)
    by_cases hp : p o = true
    · rw [List.filterMap_cons]
      simp only [hp, if_true, hio]
      rw [List.foldl_cons,
        show deleteFirstWithId (o :: rest) io = rest from by
          unfold deleteFirstWithId
          rw [if_pos hio],
        ih hsomerest hndrest, List.filter_cons_of_neg (by simp [hp])]
    · have hpo : p o = false := Bool.eq_false_iff.mpr hp
      rw [List.filterMap_cons]
      simp only [hpo, Bool.false_eq_true, if_false]
      have hnotid : ∀ i ∈ rest.filterMap fun x => if p x then x.order_id else none,
          Order.order_id o ≠ some i := by
        intro i hi hcontra
        obtain ⟨x, hx, hfx⟩ := List.mem_filterMap.mp hi
        have hxid : Order.order_id x = some i := by
          by_cases hpx : p x = true
          · rwa [if_pos hpx] at hfx
          · rw [if_neg hpx] at hfx
            exact Option.noConfusion hfx
        have : i ∈ bookIds rest := mem_bookIds hx hxid
        rw [hio] at hcontra
        cases Option.some.inj hcontra
        exact hio_not this
      rw [foldl_deleteFirst_cons rest hnotid, ih hsomerest hndrest,
        List.filter_cons_of_pos (by simp [hpo])]

/-! ### Sequences of book operations -/

/-- A session-long sequence of operations on one `OrderBook`. -/
inductive BookOp where
  | ins (o : Order)
  | del (i : OrderId)
  | exec (date : Int) (source : Source)

/-- Applying one operation; alongside the new book, the ids the operation
stamps (one for an insert, none otherwise). -/
def applyOp (b : OrderBook) : BookOp → OrderBook × List OrderId
  | BookOp.ins o => ((b.insertOrder o).1, [b.last_inserted])
  | BookOp.del i => (b.deleteOrder i, [])
  | BookOp.exec d src => ((b.executeOrders d src).2, [])

/-- Running a sequence of operations, collecting every stamped id in order. -/
def runOps (b : OrderBook) : List BookOp → OrderBook × List OrderId
  | [] => (b, [])
  | op :: rest =>
    let s := applyOp b op
    let r := runOps s.1 rest
    (r.1, s.2 ++ r.2)

theorem applyOp_counter (b : OrderBook) (op : BookOp) :
    b.last_inserted ≤ (applyOp b op).1.last_inserted := by
  cases op with
  | ins o => exact Nat.le_succ _
  | del i => exact Nat.le_refl _
  | exec d src =>
    show b.last_inserted ≤ ((b.executeOrders d src).2).last_inserted
    rw [executeOrders_snd_last]

theorem runOps_ids_lb (ops : List BookOp) (b : OrderBook) :
    ∀ i ∈ (runOps b ops).2, b.last_inserted ≤ i := by
  induction ops generalizing b with
  | nil => intro i hi; exact absurd hi (List.not_mem_nil i)
  | cons op rest ih =>
    intro i hi
    simp only [runOps] at hi
    rcases List.mem_append.mp hi with h1 | h2
    · cases op with
      | ins o =>
        rcases List.mem_cons.mp h1 with rfl | h
        · exact Nat.le_refl _
        · exact absurd h (List.not_mem_nil i)
      | del j => exact absurd h1 (List.not_mem_nil i)
      | exec d src => exact absurd h1 (List.not_mem_nil i)
    · exact Nat.le_trans (applyOp_counter b op) (ih (applyOp b op).1 i h2)

theorem foldl_delete_subset (ids : List OrderId) (l : List Order) :
    ∀ o ∈ ids.foldl (fun acc i => deleteFirstWithId acc i) l, o ∈ l := by
  induction ids generalizing l with
  | nil => intro o ho; exact ho
  | cons i rest ih =>
    intro o ho
    simp only [List.foldl_cons] at ho
    exact (deleteFirstWithId_sublist l i).subset (ih _ o ho)

end Uist

namespace Uist

theorem deleteFirst_twice (l : List Order) (i : OrderId)
    (h : (l.filter fun o => Order.order_id o == some i).length ≤ 1) :
    deleteFirstWithId (deleteFirstWithId l i) i = deleteFirstWithId l i := by
  induction l with
  | nil => rfl
  | cons x rest ih =>
    by_cases hx : Order.order_id x = some i
    · have hcount : (rest.filter fun o => Order.order_id o == some i).length = 0 := by
        rw [List.filter_cons_of_pos (by simpa using hx)] at h
        simp only [List.length_cons] at h
        omega
      have hfilter : (rest.filter fun o => Order.order_id o == some i) = [] :=
        List.length_eq_zero.mp hcount
      have hnone : ∀ o ∈ rest, Order.order_id o ≠ some i := by
        intro o ho hcontra
        have hmem : o ∈ rest.filter fun o => Order.order_id o == some i :=
          List.mem_filter.mpr ⟨ho, by simpa using hcontra⟩
        rw [hfilter] at hmem
        exact List.not_mem_nil o hmem
      rw [show deleteFirstWithId (x :: rest) i = rest from by
        simp only [deleteFirstWithId]
        rw [if_pos hx]]
      exact deleteFirstWithId_of_not_mem hnone
    · have hstep : deleteFirstWithId (x :: rest) i = x :: deleteFirstWithId rest i := by
        simp only [deleteFirstWithId]
        rw [if_neg hx]
      have hrest : (rest.filter fun o => Order.order_id o == some i).length ≤ 1 := by
        rw [List.filter_cons_of_neg (by simpa using hx)] at h
        exact h
      rw [hstep, show deleteFirstWithId (x :: deleteFirstWithId rest i) i
          = x :: deleteFirstWithId (deleteFirstWithId rest i) i from by
        simp only [deleteFirstWithId]
        rw [if_neg hx], ih hrest]

/-- C10: Order equality ignores identity and price — `a == b` holds exactly
when `symbol`, `order_type` and `shares` agree; stamping an `order_id` or
changing the `price` field never changes the verdict of `==`. -/
theorem C10_order_equality (a b : Order) :
    (Order.beq a b = true ↔
      a.symbol = b.symbol ∧ a.order_type = b.order_type ∧ a.shares = b.shares) ∧
    (∀ i : OrderId, Order.beq (a.setOrderId i) b = Order.beq a b) ∧
    (∀ p q : Option ℚ,
      Order.beq { a with price := p } { b with price := q } = Order.beq a b) := by
  refine ⟨?_, fun i => rfl, fun p q => rfl⟩
  simp [Order.beq, and_assoc]

/-- C8: deleting an id with no match in the book leaves the book unchanged
(and hence the result of any later `execute_orders` unchanged), and when the
id occurs at most once — as for every book built through `insert_order` —
deleting it twice equals deleting it once. -/
theorem C8_idempotent_delete (b : OrderBook) (i : OrderId) :
    ((∀ o ∈ b.inner, Order.order_id o ≠ some i) →
      b.deleteOrder i = b ∧
      ∀ (d : Int) (src : Source),
        (b.deleteOrder i).executeOrders d src = b.executeOrders d src) ∧
    ((b.inner.filter fun o => Order.order_id o == some i).length ≤ 1 →
      (b.deleteOrder i).deleteOrder i = b.deleteOrder i) := by
  constructor
  · intro h
    have hb : b.deleteOrder i = b := by
      unfold OrderBook.deleteOrder
      rw [deleteFirstWithId_of_not_mem h]
    exact ⟨hb, fun d src => by rw [hb]⟩
  · intro h
    unfold OrderBook.deleteOrder
    rw [deleteFirst_twice b.inner i h]

/-- C8 witness: the no-op delete evaluated on a concrete book. -/
def bookC8 : OrderBook :=
  { inner := [{ order_id := some 0, order_type := OrderType.marketBuy,
                symbol := "ABC", shares := 25, price := none }],
    last_inserted := 1 }

theorem C8_idempotent_delete_witness :
    OrderBook.deleteOrder bookC8 7 = bookC8 ∧
    OrderBook.deleteOrder (OrderBook.deleteOrder bookC8 0) 0
      = OrderBook.deleteOrder bookC8 0 :=
  ⟨((C8_idempotent_delete bookC8 7).1 (by decide)).1,
    (C8_idempotent_delete bookC8 0).2 (by decide)⟩

/-- C7: conservation of orders — a tick returns exactly as many inserted
orders as the buffer held at entry, and leaves the buffer empty. -/
theorem C7_conservation (s : UistV1) :
    ((UistV1.tick s).1.2.2).length = s.order_buffer.length ∧
    (UistV1.tick s).2.order_buffer = [] := by
  unfold UistV1.tick
  simp only [insertAll_eq]
  constructor
  · simp [stampFrom_length, sortOrderBuffer_length]
  · trivial

/-- C4: monotonic order ids — over any sequence of book operations the
stamped ids are pairwise strictly increasing in stamping order, and no
operation rewrites the id of an order already in the book: after a step every
book entry is either an untouched previous entry or the order freshly stamped
by an insert. -/
theorem C4_monotonic_ids (b : OrderBook) (ops : List BookOp) :
    ((runOps b ops).2).Pairwise (· < ·) ∧
    (∀ (op : BookOp) (o : Order), o ∈ ((applyOp b op).1).inner →
      o ∈ b.inner ∨ ∃ x, op = BookOp.ins x ∧ o = x.setOrderId b.last_inserted) := by
  constructor
  · induction ops generalizing b with
    | nil => exact List.Pairwise.nil
    | cons op rest ih =>
      show ((applyOp b op).2 ++ (runOps (applyOp b op).1 rest).2).Pairwise (· < ·)
      cases op with
      | ins o =>
        refine List.Pairwise.cons ?_ (ih _)
        intro j hj
        have hlb := runOps_ids_lb rest (applyOp b (BookOp.ins o)).1 j hj
        have hc : (applyOp b (BookOp.ins o)).1.last_inserted = b.last_inserted + 1 := rfl
        show b.last_inserted < j
        omega
      | del i => exact ih _
      | exec d src => exact ih _
  · intro op o ho
    cases op with
    | ins x =>
      rcases List.mem_append.mp ho with h1 | h2
      · exact Or.inl h1
      · rcases List.mem_cons.mp h2 with rfl | h3
        · exact Or.inr ⟨x, rfl, rfl⟩
        · exact absurd h3 (List.not_mem_nil o)
    | del i =>
      exact Or.inl ((deleteFirstWithId_sublist b.inner i).subset ho)
    | exec d src =>
      refine Or.inl ?_
      have ho2 : o ∈ (b.executeOrders d src).2.inner := ho
      rw [executeOrders_snd_inner b d src] at ho2
      exact foldl_delete_subset _ b.inner o ho2

end Uist

namespace Uist

theorem optGe_some_some (p a : ℚ) : optGe (some p) (some a) = decide (a ≤ p) := by
  simp [optGe, ge_iff_le]

theorem optLe_some_some (p a : ℚ) : optLe (some p) (some a) = decide (p ≤ a) := by
  simp [optLe]

/-- C2: the execution rule of `execute_orders` — trades are produced in walk
(insertion) order, one full fill per triggered order; an order with no quote
for its `(date, symbol)` is skipped and remains resting; market orders always
trigger, limit and stop orders trigger by the price comparisons of the table;
buys fill at the ask and sells at the bid with `value = quantity × price`;
and exactly the triggered orders are removed from the book (stated for a book
whose resting orders carry distinct, assigned ids, as every book reached
through `insert_order` does). -/
theorem C2_execute_rule (b : OrderBook) (date : Int) (source : Source)
    (hsome : ∀ o ∈ b.inner, (Order.order_id o).isSome = true)
    (hnd : (bookIds b.inner).Nodup) :
    ((b.executeOrders date source).1 = b.inner.filterMap (orderResult source date)) ∧
    ((b.executeOrders date source).2.inner
        = b.inner.filter fun o => (orderResult source date o).isNone) ∧
    (∀ o ∈ b.inner, source date o.symbol = none →
      orderResult source date o = none ∧ o ∈ (b.executeOrders date source).2.inner) ∧
    (∀ (o : Order) (q : UistQuote), source date o.symbol = some q →
      (o.order_type = OrderType.marketBuy →
        orderResult source date o = some (OrderBook.executeBuy q o date)) ∧
      (o.order_type = OrderType.marketSell →
        orderResult source date o = some (OrderBook.executeSell q o date)) ∧
      (∀ p : ℚ, o.price = some p →
        (o.order_type = OrderType.limitBuy →
          orderResult source date o
            = if q.ask ≤ p then some (OrderBook.executeBuy q o date) else none) ∧
        (o.order_type = OrderType.limitSell →
          orderResult source date o
            = if p ≤ q.bid then some (OrderBook.executeSell q o date) else none) ∧
        (o.order_type = OrderType.stopBuy →
          orderResult source date o
            = if p ≤ q.ask then some (OrderBook.executeBuy q o date) else none) ∧
        (o.order_type = OrderType.stopSell →
          orderResult source date o
            = if q.bid ≤ p then some (OrderBook.executeSell q o date) else none))) ∧
    (∀ (o : Order) (t : Trade), orderResult source date o = some t →
      t.quantity = o.shares ∧ t.symbol = o.symbol ∧ t.date = date ∧
      ∀ q : UistQuote, source date o.symbol = some q →
        (t.typ = TradeType.buy → t.value = q.ask * t.quantity) ∧
        (t.typ = TradeType.sell → t.value = q.bid * t.quantity)) := by
  have hfilter : (b.executeOrders date source).2.inner
      = b.inner.filter fun o => (orderResult source date o).isNone := by
    rw [executeOrders_snd_inner b date source,
      foldl_delete_filterMap (fun o => (orderResult source date o).isSome) b.inner hsome hnd]
    exact List.filter_congr fun o _ => by cases orderResult source date o <;> rfl
  refine ⟨executeOrders_fst b date source, hfilter, ?_, ?_, ?_⟩
  · intro o ho hq
    refine ⟨orderResult_of_no_quote hq, ?_⟩
    rw [hfilter]
    exact List.mem_filter.mpr ⟨ho, by rw [orderResult_of_no_quote hq]; rfl⟩
  · intro o q hq
    refine ⟨?_, ?_, ?_⟩
    · intro hty
      simp only [orderResult]
      rw [hq, hty]
    · intro hty
      simp only [orderResult]
      rw [hq, hty]
    · intro p hp
      refine ⟨?_, ?_, ?_, ?_⟩
      · intro hty
        simp only [orderResult]
        rw [hq, hty, hp]
        by_cases hcase : q.ask ≤ p <;> simp [optGe_some_some, hcase]
      · intro hty
        simp only [orderResult]
        rw [hq, hty, hp]
        by_cases hcase : p ≤ q.bid <;> simp [optLe_some_some, hcase]
      · intro hty
        simp only [orderResult]
        rw [hq, hty, hp]
        by_cases hcase : p ≤ q.ask <;> simp [optLe_some_some, hcase]
      · intro hty
        simp only [orderResult]
        rw [hq, hty, hp]
        by_cases hcase : q.bid ≤ p <;> simp [optGe_some_some, hcase]
  · intro o t ht
    obtain ⟨q0, hq0, hshape⟩ := orderResult_shape ht
    refine ⟨orderResult_quantity ht, ?_, orderResult_date ht, ?_⟩
    · rcases hshape with ⟨-, rfl⟩ | ⟨-, rfl⟩ <;> rfl
    · intro q hq
      rw [hq0] at hq
      cases Option.some.inj hq
      rcases hshape with ⟨-, rfl⟩ | ⟨-, rfl⟩
      · exact ⟨fun _ => rfl, fun h => absurd h (by simp [OrderBook.executeBuy])⟩
      · exact ⟨fun h => absurd h (by simp [OrderBook.executeSell]), fun _ => rfl⟩

end Uist

namespace Uist

/-- On a well-formed (strictly increasing, in-range) clock with a next
timestamp, a tick strictly advances `now`. -/
theorem Clock.tick_now_lt {c : Clock} (hwf : c.WF) (hnext : c.hasNext = true) :
    c.now < c.tick.now := by
  obtain ⟨hpos, hsorted⟩ := hwf
  have hlt : c.pos + 1 < c.dates.length := of_decide_eq_true hnext
  unfold Clock.tick
  rw [if_pos hnext]
  show c.dates.getD c.pos 0 < c.dates.getD (c.pos + 1) 0
  rw [List.getD_eq_getElem?_getD, List.getD_eq_getElem?_getD,
    List.getElem?_eq_getElem hpos, List.getElem?_eq_getElem hlt]
  simp only [Option.getD_some]
  have := hsorted.rel_get_of_lt
    (show (⟨c.pos, hpos⟩ : Fin c.dates.length) < ⟨c.pos + 1, hlt⟩ from Nat.lt_succ_self _)
  simpa [List.get_eq_getElem] using this

/-- A shared one-symbol quote source: ABC quoted 101/102 at date 100,
102/103 at 101, 105/106 at 102. -/
def srcW : Source := fun d sym =>
  if sym = "ABC" then
    if d = 100 then some { bid := 101, ask := 102, date := 100, symbol := "ABC" }
    else if d = 101 then some { bid := 102, ask := 103, date := 101, symbol := "ABC" }
    else if d = 102 then some { bid := 105, ask := 106, date := 102, symbol := "ABC" }
    else none
  else none

/-- C2 witness data: a stamped two-order book. -/
def bookC2 : OrderBook :=
  { inner :=
      [{ order_id := some 0, order_type := OrderType.limitBuy,
         symbol := "ABC", shares := 100, price := some 95 },
       { order_id := some 1, order_type := OrderType.limitBuy,
         symbol := "ABC", shares := 100, price := some 105 }],
    last_inserted := 2 }

theorem C2_execute_rule_witness :
    (bookC2.executeOrders 100 srcW).2.inner
      = bookC2.inner.filter fun o => (orderResult srcW 100 o).isNone :=
  (C2_execute_rule bookC2 100 srcW (by decide) (by decide)).2.1

/-- C1 (amended): every trade in the batch a tick returns is dated at the
clock's time after the advance; when the clock still had a next timestamp at
entry, that time — and hence every such trade's date — is strictly greater
than the entry time `T`.  (On an exhausted clock the spec-modelled advance is
a no-op and the dates equal `T`; see the counterexample.) -/
theorem C1_no_lookahead (s : UistV1) (hwf : s.clock.WF) :
    (∀ t ∈ (UistV1.tick s).1.2.1, t.date = (UistV1.tick s).2.clock.now) ∧
    (s.clock.hasNext = true → s.clock.now < (UistV1.tick s).2.clock.now) := by
  constructor
  · intro t ht
    have hfst : (UistV1.tick s).1.2.1
        = ((insertAll s.orderbook (sortOrderBuffer s.order_buffer)).1.executeOrders
            (s.clock.tick).now s.price_source).1 := rfl
    rw [hfst, executeOrders_fst] at ht
    obtain ⟨o, ho, hres⟩ := List.mem_filterMap.mp ht
    exact orderResult_date hres
  · intro hnext
    show s.clock.now < (s.clock.tick).now
    exact Clock.tick_now_lt hwf hnext

/-- C1 counterexample data: a state whose (spec-modelled) exhausted clock
reads its final date 102, with a buffered market order and a quote at 102. -/
def stateExhausted : UistV1 :=
  { dataset := "FAKE"
    clock := { dates := [100, 101, 102], pos := 2 }
    price_source := srcW
    orderbook := OrderBook.new
    trade_log := []
    order_buffer := [{ order_id := none, order_type := OrderType.marketBuy,
                       symbol := "ABC", shares := 5, price := none }] }

/-- C1 counterexample: the clock reads `T = 102` and is exhausted, so the
spec-modelled tick cannot advance it; the buffered market order still
executes, and its trade is dated exactly 102 — not strictly greater than
`T`. -/
theorem C1_counterexample :
    Clock.now stateExhausted.clock = 102 ∧
    Clock.hasNext stateExhausted.clock = false ∧
    ((UistV1.tick stateExhausted).1.2.1).map Trade.date = [102] := by
  refine ⟨rfl, rfl, ?_⟩
  decide

/-- C1 witness: the amended theorem applied to a fresh engine whose clock
stands at 100 with two further dates. -/
def stateC1 : UistV1 :=
  UistV1.new { dates := [100, 101, 102], pos := 0 } srcW "FAKE"

theorem C1_no_lookahead_witness :
    Clock.now stateC1.clock < Clock.now (UistV1.tick stateC1).2.clock :=
  (C1_no_lookahead stateC1 ⟨by decide, by decide⟩).2 (by decide)

end Uist

namespace Uist

theorem OrderBook.eq_of_fields {a b : OrderBook} (h1 : a.inner = b.inner)
    (h2 : a.last_inserted = b.last_inserted) : a = b := by
  cases a
  cases b
  cases h1
  cases h2
  rfl

theorem executeOrders_of_all_none {b : OrderBook} {date : Int} {source : Source}
    (h : ∀ o ∈ b.inner, orderResult source date o = none) :
    b.executeOrders date source = ([], b) := by
  have h1 := executeOrders_fst b date source
  have h2 := executeOrders_snd_inner b date source
  have h3 := executeOrders_snd_last b date source
  have hids : (b.inner.filterMap fun o =>
      if (orderResult source date o).isSome then o.order_id else none) = [] := by
    rw [List.filterMap_eq_nil_iff]
    intro o ho
    rw [h o ho]
    rfl
  have htr : b.inner.filterMap (orderResult source date) = [] :=
    List.filterMap_eq_nil_iff.mpr h
  rw [hids, List.foldl_nil] at h2
  refine Prod.ext ?_ (OrderBook.eq_of_fields h2 h3)
  rw [h1, htr]

/-- Under assigned, distinct ids the post-execution book is exactly the
non-triggered orders, in their original order. -/
theorem executeOrders_inner_filter (b : OrderBook) (date : Int) (source : Source)
    (hsome : ∀ o ∈ b.inner, (Order.order_id o).isSome = true)
    (hnd : (bookIds b.inner).Nodup) :
    (b.executeOrders date source).2.inner
      = b.inner.filter fun o => (orderResult source date o).isNone := by
  rw [executeOrders_snd_inner b date source,
    foldl_delete_filterMap (fun o => (orderResult source date o).isSome) b.inner hsome hnd]
  exact List.filter_congr fun o _ => by cases orderResult source date o <;> rfl

/-- A tick from a state with an empty buffer, an exhausted (spec-modelled)
clock, and a book none of whose orders triggers at the current date returns
`(false, [], [])` and changes nothing. -/
theorem tick_noop (s : UistV1) (hbuf : s.order_buffer = [])
    (hexh : s.clock.hasNext = false)
    (hnone : ∀ o ∈ s.orderbook.inner, orderResult s.price_source s.clock.now o = none) :
    UistV1.tick s = ((false, [], []), s) := by
  obtain ⟨ds, cl, ps, ob, tl, buf⟩ := s
  simp only at hbuf hexh hnone
  subst hbuf
  have hcl : cl.tick = cl := by
    unfold Clock.tick
    rw [if_neg (by simp [hexh])]
  unfold UistV1.tick
  simp only [hcl, hexh]
  rw [show sortOrderBuffer [] = [] from rfl, show insertAll ob [] = (ob, []) from rfl,
    executeOrders_of_all_none hnone]
  simp

end Uist

namespace Uist

/-- C5 (amended): a tick on an exhausted (spec-modelled) clock always reports
`has_next = false` and never an error; it is NOT in general a no-op — the
buffered orders are still inserted and may execute at the final date (see the
counterexample) — but repeating the tick immediately, with no intervening
insertions, is: the second exhausted tick returns `(false, [], [])` and
changes no engine state (stated for a book whose ids are assigned, distinct
and below the counter, as every book reached through `insert_order` is). -/
theorem C5_exhausted_tick (s : UistV1) (hexh : s.clock.hasNext = false)
    (hsome : ∀ o ∈ s.orderbook.inner, (Order.order_id o).isSome = true)
    (hnd : (bookIds s.orderbook.inner).Nodup)
    (hlt : ∀ i ∈ bookIds s.orderbook.inner, i < s.orderbook.last_inserted) :
    (UistV1.tick s).1.1 = false ∧
    UistV1.tick (UistV1.tick s).2 = ((false, [], []), (UistV1.tick s).2) := by
  have hcl : s.clock.tick = s.clock := by
    unfold Clock.tick
    rw [if_neg (by simp [hexh])]
  have hinner1 : (insertAll s.orderbook (sortOrderBuffer s.order_buffer)).1.inner
      = s.orderbook.inner
        ++ stampFrom s.orderbook.last_inserted (sortOrderBuffer s.order_buffer) := by
    rw [insertAll_eq]
  have hsome1 : ∀ o ∈ (insertAll s.orderbook (sortOrderBuffer s.order_buffer)).1.inner,
      (Order.order_id o).isSome = true := by
    rw [hinner1]
    intro o ho
    rcases List.mem_append.mp ho with h1 | h2
    · exact hsome o h1
    · obtain ⟨x, hx, k, rfl⟩ := mem_stampFrom h2
      rfl
  have hnd1 : (bookIds (insertAll s.orderbook (sortOrderBuffer s.order_buffer)).1.inner).Nodup := by
    rw [hinner1]
    unfold bookIds
    rw [List.filterMap_append]
    refine List.Nodup.append hnd ?_ ?_
    · show (bookIds (stampFrom s.orderbook.last_inserted (sortOrderBuffer s.order_buffer))).Nodup
      unfold bookIds
      rw [stampFrom_ids]
      exact List.nodup_range' _ _
    · intro i hi1 hi2
      have hi2' : i ∈ bookIds (stampFrom s.orderbook.last_inserted
          (sortOrderBuffer s.order_buffer)) := hi2
      unfold bookIds at hi2'
      rw [stampFrom_ids] at hi2'
      obtain ⟨j, hj, rfl⟩ := List.mem_range'.mp hi2'
      have hcontra : s.orderbook.last_inserted + 1 * j < s.orderbook.last_inserted :=
        hlt _ hi1
      omega
  have hfilter1 : (UistV1.tick s).2.orderbook.inner
      = (insertAll s.orderbook (sortOrderBuffer s.order_buffer)).1.inner.filter
          fun o => (orderResult s.price_source (s.clock.tick).now o).isNone :=
    executeOrders_inner_filter _ _ _ hsome1 hnd1
  constructor
  · show (s.clock.tick).hasNext = false
    rw [hcl]
    exact hexh
  · apply tick_noop
    · rfl
    · show (s.clock.tick).hasNext = false
      rw [hcl]
      exact hexh
    · intro o ho
      show orderResult s.price_source (s.clock.tick).now o = none
      rw [hfilter1] at ho
      exact Option.isNone_iff_eq_none.mp (List.mem_filter.mp ho).2

/-- C5 counterexample data: an exhausted clock reading its final date 102, a
buffered market order, and a quote at 102. -/
def stateC5cex : UistV1 :=
  { dataset := "FAKE"
    clock := { dates := [100, 101, 102], pos := 2 }
    price_source := srcW
    orderbook := OrderBook.new
    trade_log := []
    order_buffer := [{ order_id := none, order_type := OrderType.marketSell,
                       symbol := "ABC", shares := 7, price := none }] }

/-- C5 counterexample: a tick on an exhausted clock still drains the buffer
into the book and executes it at the final date — the returned trade batch is
not empty and the trade log changes, refuting "empty trade batch" and
"changes no engine state". -/
theorem C5_counterexample :
    Clock.hasNext stateC5cex.clock = false ∧
    (UistV1.tick stateC5cex).1.2.1 ≠ [] ∧
    (UistV1.tick stateC5cex).2.trade_log ≠ stateC5cex.trade_log := by
  refine ⟨rfl, ?_, ?_⟩ <;> decide

/-- C5 witness data: an exhausted clock over a well-formed book whose single
resting order cannot trigger. -/
def stateC5 : UistV1 :=
  { dataset := "FAKE"
    clock := { dates := [100, 101, 102], pos := 2 }
    price_source := srcW
    orderbook := { inner := [{ order_id := some 0, order_type := OrderType.limitBuy,
                               symbol := "ABC", shares := 10, price := some 1 }],
                   last_inserted := 1 }
    trade_log := []
    order_buffer := [] }

theorem C5_exhausted_tick_witness :
    (UistV1.tick stateC5).1.1 = false :=
  (C5_exhausted_tick stateC5 (by decide) (by decide) (by decide) (by decide)).1

end Uist

namespace Uist

/-- C3 (amended): the tick's sorting step places all sells before all buys,
with the buy group in insertion order but the sell group in REVERSE insertion
order — `sort_by`'s comparator ignores its second argument, so it is not a
total order and the standard library's stable sort (insertion sort for
buffers of at most 20 orders, the regime embedded by `sortOrderBuffer`)
reverses the sells.  Consequently, within a single tick, the trades produced
from the newly buffered orders are the Sell trades followed by the Buy
trades, both after the trades of previously resting orders. -/
theorem C3_buffer_sort (l : List Order) (s : UistV1) :
    (sortOrderBuffer l
      = (l.filter isSellOrder).reverse ++ l.filter (fun o => !isSellOrder o)) ∧
    ∃ oldTrades sellTrades buyTrades,
      (UistV1.tick s).1.2.1 = oldTrades ++ (sellTrades ++ buyTrades) ∧
      oldTrades = s.orderbook.inner.filterMap
        (orderResult s.price_source (s.clock.tick).now) ∧
      (∀ t ∈ sellTrades, t.typ = TradeType.sell) ∧
      (∀ t ∈ buyTrades, t.typ = TradeType.buy) := by
  refine ⟨sortOrderBuffer_eq l, ?_⟩
  have hinner1 : (insertAll s.orderbook (sortOrderBuffer s.order_buffer)).1.inner
      = s.orderbook.inner
        ++ stampFrom s.orderbook.last_inserted (sortOrderBuffer s.order_buffer) := by
    rw [insertAll_eq]
  have h1 : (UistV1.tick s).1.2.1
      = (s.orderbook.inner ++ stampFrom s.orderbook.last_inserted
          (sortOrderBuffer s.order_buffer)).filterMap
            (orderResult s.price_source (s.clock.tick).now) := by
    show ((insertAll s.orderbook (sortOrderBuffer s.order_buffer)).1.executeOrders
        (s.clock.tick).now s.price_source).1 = _
    rw [executeOrders_fst, hinner1]
  rw [sortOrderBuffer_eq, stampFrom_append, List.filterMap_append, List.filterMap_append]
    at h1
  refine ⟨_, _, _, h1, rfl, ?_, ?_⟩
  · intro t ht
    obtain ⟨o, ho, hres⟩ := List.mem_filterMap.mp ht
    obtain ⟨x, hx, k, rfl⟩ := mem_stampFrom ho
    have hsx : isSellOrder x = true :=
      (List.mem_filter.mp (List.mem_reverse.mp hx)).2
    exact orderResult_typ_of_sell (by rw [isSellOrder_setOrderId]; exact hsx) hres
  · intro t ht
    obtain ⟨o, ho, hres⟩ := List.mem_filterMap.mp ht
    obtain ⟨x, hx, k, rfl⟩ := mem_stampFrom ho
    have hbx : isSellOrder x = false := by
      have := (List.mem_filter.mp hx).2
      simpa using this
    exact orderResult_typ_of_buy (by rw [isSellOrder_setOrderId]; exact hbx) hres

/-- C3 counterexample data: two distinguishable sells and a buy. -/
def sellA : Order :=
  { order_id := none, order_type := OrderType.marketSell,
    symbol := "ABC", shares := 1, price := none }

def sellB : Order :=
  { order_id := none, order_type := OrderType.marketSell,
    symbol := "ABC", shares := 2, price := none }

def buyC : Order :=
  { order_id := none, order_type := OrderType.marketBuy,
    symbol := "ABC", shares := 3, price := none }

/-- C3 counterexample: sorting the buffer `[sellA, sellB, buyC]` yields the
sell group as `[sellB, sellA]` — the two (distinct) sells come out in the
REVERSE of their insertion order, refuting "within the sell group the
original insertion order is preserved". -/
theorem C3_counterexample :
    (sortOrderBuffer [sellA, sellB, buyC]).filter isSellOrder = [sellB, sellA] ∧
    [sellA, sellB, buyC].filter isSellOrder = [sellA, sellB] ∧
    sellA ≠ sellB := by
  refine ⟨?_, ?_, ?_⟩ <;> decide

end Uist

namespace Uist

theorem orderResult_limitBuy_none {src : Source} {d : Int} {o : Order}
    (hp : o.price = none) (hty : o.order_type = OrderType.limitBuy) :
    orderResult src d o = none := by
  simp only [orderResult]
  cases hq : src d o.symbol with
  | none => rfl
  | some q =>
    rw [hty, hp]
    rfl

theorem orderResult_stopSell_none {src : Source} {d : Int} {o : Order}
    (hp : o.price = none) (hty : o.order_type = OrderType.stopSell) :
    orderResult src d o = none := by
  simp only [orderResult]
  cases hq : src d o.symbol with
  | none => rfl
  | some q =>
    rw [hty, hp]
    rfl

theorem mem_foldl_delete {l : List Order} {ids : List OrderId} {o : Order}
    (ho : o ∈ l) (h : ∀ i ∈ ids, o.order_id ≠ some i) :
    o ∈ ids.foldl (fun acc i => deleteFirstWithId acc i) l := by
  induction ids generalizing l with
  | nil => exact ho
  | cons i rest ih =>
    simp only [List.foldl_cons]
    exact ih (mem_deleteFirstWithId ho (h i (List.mem_cons_self _ _)))
      fun j hj => h j (List.mem_cons_of_mem i hj)

/-- C9 (amended): every order is accepted by `insert_order` with no
validation; an order with an absent price rests forever only when its type is
`LimitBuy` or `StopSell` — Rust's `Option` ordering puts `None` below every
`Some`, so their trigger comparisons fail and (for a book with distinct ids)
the order survives every execution pass; a `LimitSell` or `StopBuy` with an
absent price instead has its trigger vacuously satisfied and fills as soon as
a quote exists. -/
theorem C9_invalid_orders (src : Source) (d : Int) (o : Order) :
    (∀ (b : OrderBook) (x : Order),
      ((b.insertOrder x).1).inner.length = b.inner.length + 1) ∧
    (o.price = none →
      (o.order_type = OrderType.limitBuy → orderResult src d o = none) ∧
      (o.order_type = OrderType.stopSell → orderResult src d o = none) ∧
      (∀ q : UistQuote, src d o.symbol = some q →
        (o.order_type = OrderType.limitSell →
          orderResult src d o = some (OrderBook.executeSell q o d)) ∧
        (o.order_type = OrderType.stopBuy →
          orderResult src d o = some (OrderBook.executeBuy q o d)))) ∧
    (∀ b : OrderBook, (bookIds b.inner).Nodup → o ∈ b.inner → o.price = none →
      (o.order_type = OrderType.limitBuy ∨ o.order_type = OrderType.stopSell) →
      o ∈ ((b.executeOrders d src).2).inner) := by
  refine ⟨fun b x => by simp [OrderBook.insertOrder], ?_, ?_⟩
  · intro hp
    refine ⟨orderResult_limitBuy_none hp, orderResult_stopSell_none hp, ?_⟩
    intro q hq
    constructor
    · intro hty
      simp only [orderResult]
      rw [hq, hty, hp]
      rfl
    · intro hty
      simp only [orderResult]
      rw [hq, hty, hp]
      rfl
  · intro b hnd ho hp hty
    have hres : orderResult src d o = none := by
      rcases hty with h1 | h1
      · exact orderResult_limitBuy_none hp h1
      · exact orderResult_stopSell_none hp h1
    have hmem : o ∈ (b.inner.filterMap fun x =>
        if (orderResult src d x).isSome then x.order_id else none).foldl
          (fun acc i => deleteFirstWithId acc i) b.inner := by
      refine mem_foldl_delete ho ?_
      intro i hi hcontra
      obtain ⟨x, hx, hfx⟩ := List.mem_filterMap.mp hi
      have hxid : Order.order_id x = some i := by
        by_cases hpx : (orderResult src d x).isSome = true
        · rwa [if_pos hpx] at hfx
        · rw [if_neg hpx] at hfx
          exact Option.noConfusion hfx
      have hxsome : (orderResult src d x).isSome = true := by
        by_cases hpx : (orderResult src d x).isSome = true
        · exact hpx
        · rw [if_neg hpx] at hfx
          exact Option.noConfusion hfx
      have hxeq : o = x := nodup_ids_eq hnd ho hx hcontra hxid
      rw [← hxeq, hres] at hxsome
      exact Bool.noConfusion hxsome
    rw [executeOrders_snd_inner]
    exact hmem

/-- C9 counterexample data: a LimitSell with an absent price, resting in a
stamped book. -/
def limitSellNone : Order :=
  { order_id := some 0, order_type := OrderType.limitSell,
    symbol := "ABC", shares := 10, price := none }

def bookC9 : OrderBook :=
  { inner := [limitSellNone], last_inserted := 1 }

/-- C9 counterexample: a LimitSell whose price is absent — an order violating
the data-model invariant — does NOT rest forever: Rust compares
`None <= Some(bid)` as true, so it fills (one Sell trade at the final bid) on
the first execution with a quote and leaves the book. -/
theorem C9_counterexample :
    limitSellNone.price = none ∧
    ((bookC9.executeOrders 100 srcW).1).map Trade.typ = [TradeType.sell] ∧
    ((bookC9.executeOrders 100 srcW).1).map Trade.date = [100] ∧
    (bookC9.executeOrders 100 srcW).2.inner = [] := by
  refine ⟨rfl, ?_, ?_, ?_⟩ <;> decide

/-- C9 witness data: a LimitBuy with an absent price. -/
def limitBuyNone : Order :=
  { order_id := some 0, order_type := OrderType.limitBuy,
    symbol := "ABC", shares := 10, price := none }

def bookC9w : OrderBook :=
  { inner := [limitBuyNone], last_inserted := 1 }

theorem C9_invalid_orders_witness :
    limitBuyNone ∈ (OrderBook.executeOrders bookC9w 100 srcW).2.inner :=
  (C9_invalid_orders srcW 100 limitBuyNone).2.2 bookC9w (by decide) (by decide)
    (by decide) (Or.inl (by decide))

end Uist

namespace Jura

/-- C6 failing input: an `AppState` with one registered dataset and no
sessions yet. -/
def stC6 : AppState :=
  { backtests := [], last := 0, datasets := [("X", { first_date := 100 })] }

/-- C6: `AppState::init` computes `new_id = self.last + 1` but never writes
it back to `self.last` (unlike its sibling `new_backtest`, which does), so
two consecutive `init` calls on the same state both return session id 1 and
`last` stays 0; the second call silently overwrites the first session in the
map instead of creating a distinct one — session ids are reused. -/
theorem C6_init_reuses_ids :
    (stC6.init "X").1 = some 1 ∧
    (stC6.init "X").2.last = 0 ∧
    (((stC6.init "X").2).init "X").1 = some 1 ∧
    (((stC6.init "X").2).init "X").2.backtests.length = 1 := by
  refine ⟨?_, ?_, ?_, ?_⟩ <;> decide

end Jura

namespace Uist

theorem C3_buffer_sort_witness :
    sortOrderBuffer [sellA, sellB, buyC]
      = ([sellA, sellB, buyC].filter isSellOrder).reverse
        ++ [sellA, sellB, buyC].filter (fun o => !isSellOrder o) :=
  (C3_buffer_sort [sellA, sellB, buyC]
    (UistV1.new { dates := [100], pos := 0 } srcW "FAKE")).1

theorem C4_monotonic_ids_witness :
    ((runOps OrderBook.new [BookOp.ins sellA, BookOp.ins buyC, BookOp.ins sellB]).2).Pairwise
      (· < ·) :=
  (C4_monotonic_ids OrderBook.new [BookOp.ins sellA, BookOp.ins buyC, BookOp.ins sellB]).1

theorem C10_order_equality_witness :
    Order.beq (Order.setOrderId sellA 5) sellA = Order.beq sellA sellA ∧
    Order.beq sellA sellA = true :=
  ⟨(C10_order_equality sellA sellA).2.1 5,
    (C10_order_equality sellA sellA).1.mpr ⟨rfl, rfl, rfl⟩⟩

theorem C7_conservation_witness :
    (UistV1.tick stateC5cex).2.order_buffer = [] :=
  (C7_conservation stateC5cex).2

end Uist
